import Mathlib

/-!
Verification of the version-discovery and mirror-gap-detection core of
the image-mirroring scripts (.github/scripts/mirror_images.py).

The Python source is shallowly embedded below:

* parse_version_parts  — matches a version string against the anchored
  pattern  ^(\d+)\.(\d+)\.(\d+)(?:-ext-v(\d+)(?:\.(\d+))?)?$  and returns
  the numeric groups; a failed match (Python: ValueError) is modelled as
  Option.none.  The \d class is modelled as the ASCII digits 0-9 and the
  anchors as the exact start and end of the string.
* version_sort_key     — builds the 5-component sort key used everywhere.
* check_ghcr_tag_exists — modelled over the possible outcomes of the
  subprocess call it wraps.
* filter_versions_binary_search — the probe-minimizing gap detector.
  The while-loop is embedded with an explicit fuel argument (the loop
  body shrinks the interval each iteration, and every entry point passes
  fuel at least the interval width, so the fuel branch is unreachable);
  the probe is an injected function String -> Bool, as the Python code
  injects the registry check.  Python's stable sorted(-, key=-) is
  embedded as List.insertionSort over the key order (any stable sort
  computes the same function).  The raise inside sorted's key calls for
  an unparseable string is modelled by returning none.
-/

/-- Numeric value of an ASCII decimal-digit run, as Python int() computes it
on the matched group. -/
def digitsToNat (l : List Char) : Nat :=
  l.foldl (fun n c => 10 * n + (c.toNat - 48)) 0

/-- One \d+ group: the maximal leading digit run, which must be nonempty;
returns its value and the rest of the input. -/
def parseNum (l : List Char) : Option (Nat × List Char) :=
  let ds := l.takeWhile Char.isDigit
  if ds.isEmpty then none else some (digitsToNat ds, l.dropWhile Char.isDigit)

/-- Embedding of parse_version_parts: match against
^(\d+)\.(\d+)\.(\d+)(?:-ext-v(\d+)(?:\.(\d+))?)?$ and return
(major, minor, patch, ext_major, ext_minor); none models the
ValueError raised on a failed match. -/
def parse_version_parts (s : String) :
    Option (Nat × Nat × Nat × Option Nat × Option Nat) :=
  match parseNum s.data with
  | none => none
  | some (major, r1) =>
    match r1 with
    | '.' :: r1' =>
      match parseNum r1' with
      | none => none
      | some (minor, r2) =>
        match r2 with
        | '.' :: r2' =>
          match parseNum r2' with
          | none => none
          | some (patch, r3) =>
            match r3 with
            | [] => some (major, minor, patch, none, none)
            | '-' :: 'e' :: 'x' :: 't' :: '-' :: 'v' :: r4 =>
              match parseNum r4 with
              | none => none
              | some (ext_major, r5) =>
                match r5 with
                | [] => some (major, minor, patch, some ext_major, none)
                | '.' :: r5' =>
                  match parseNum r5' with
                  | some (ext_minor, []) =>
                    some (major, minor, patch, some ext_major, some ext_minor)
                  | _ => none
                | _ => none
            | _ => none
        | _ => none
    | _ => none

/-- The 5-tuple built by version_sort_key. -/
structure SortKey where
  major : Nat
  minor : Nat
  patch : Nat
  extRank : Int
  extMinor : Int
deriving DecidableEq

/-- Embedding of version_sort_key; none models the ValueError propagated
from parse_version_parts on an unparseable string. -/
def version_sort_key (v : String) : Option SortKey :=
  (parse_version_parts v).map fun t =>
    match t with
    | (major, minor, patch, none, _) =>
      ⟨major, minor, patch, -1, -1⟩
    | (major, minor, patch, some e, en) =>
      ⟨major, minor, patch, (e : Int), ((en.getD 0 : Nat) : Int)⟩

/-- Python tuple comparison of two sort keys (componentwise, first
difference decides). -/
def keyLE (a b : SortKey) : Bool :=
  if a.major = b.major then
    if a.minor = b.minor then
      if a.patch = b.patch then
        if a.extRank = b.extRank then decide (a.extMinor ≤ b.extMinor)
        else decide (a.extRank < b.extRank)
      else decide (a.patch < b.patch)
    else decide (a.minor < b.minor)
  else decide (a.major < b.major)

/-- Lexicographic order on key tuples, stated declaratively (the spec's
phrase "lexicographic comparison of these tuples"). -/
def lexLE (a b : SortKey) : Prop :=
  a.major < b.major ∨
    (a.major = b.major ∧
      (a.minor < b.minor ∨
        (a.minor = b.minor ∧
          (a.patch < b.patch ∨
            (a.patch = b.patch ∧
              (a.extRank < b.extRank ∨
                (a.extRank = b.extRank ∧ a.extMinor ≤ b.extMinor)))))))

theorem keyLE_iff_lexLE (a b : SortKey) : keyLE a b = true ↔ lexLE a b := by
  unfold keyLE lexLE
  split_ifs <;> simp_all

/-- Total key function used by the embedded sort: the default value is
never consulted, because the sort is only reached after every element's
key has been checked to exist (Python computes all keys first and raises
otherwise, which the embedding models as returning none). -/
def vkeyD (s : String) : SortKey :=
  (version_sort_key s).getD ⟨0, 0, 0, 0, 0⟩

/-- Key comparison lifted to version strings. -/
def vle (x y : String) : Prop := keyLE (vkeyD x) (vkeyD y) = true

instance : DecidableRel vle := fun x y => by
  unfold vle; infer_instance

instance : IsTotal String vle := by
  constructor
  intro x y
  simp only [vle, keyLE_iff_lexLE, lexLE]
  omega

instance : IsTrans String vle := by
  constructor
  intro x y z
  simp only [vle, keyLE_iff_lexLE, lexLE]
  omega

example : parse_version_parts "6.0.0" = some (6, 0, 0, none, none) := by decide
example : parse_version_parts "6.0.1-ext-v3.3" = some (6, 0, 1, some 3, some 3) := by decide
example : parse_version_parts "latest" = none := by decide
example : parse_version_parts "6.0.1-beta" = none := by decide
example : parse_version_parts "6.0" = none := by decide
example : version_sort_key "6.0.0" = some ⟨6, 0, 0, -1, -1⟩ := by decide
example : version_sort_key "6.0.0-ext-v1" = some ⟨6, 0, 0, 1, 0⟩ := by decide

/-- Tag probed against the mirror registry for a version string:
f"{variant}-{versions[i]}". -/
def mkTag (variant v : String) : String := variant ++ "-" ++ v

/-- Possible outcomes of the subprocess.run call inside
check_ghcr_tag_exists (capture_output=True, timeout=60): the process
completes with a return code, or the 60s timeout elapses and
subprocess.TimeoutExpired is raised, or another exception is raised
(for example FileNotFoundError when the binary is absent). -/
inductive RunOutcome where
  | completed (returncode : Int)
  | timeoutExpired
  | raised (exception : String)
deriving DecidableEq

/-- Embedding of check_ghcr_tag_exists as a function of the outcome of
its subprocess call: the function body only converts a completed run
into returncode == 0 and lets any exception escape (there is no
try/except around subprocess.run). -/
def check_ghcr_tag_exists (run : RunOutcome) : Except String Bool :=
  match run with
  | .completed rc => .ok (rc == 0)
  | .timeoutExpired => .error "subprocess.TimeoutExpired"
  | .raised e => .error e

/-- The while left <= right binary-search loop of
filter_versions_binary_search, embedded with an exclusive right bound
r (Python's right is r - 1, so mid = (left + right) // 2 becomes
(left + r - 1) / 2 and the loop guard left <= right becomes left < r).
The third argument is first_missing; the fuel argument makes the
recursion structural, and every caller supplies fuel >= r - left, which
is enough because the interval shrinks at every iteration (lemma
bsearchGo_fuel_irrelevant).  Returns (first_missing, number of probes). -/
def bsearchGo (p : Nat → Bool) : Nat → Nat → Nat → Nat → Nat × Nat
  | 0, _, _, fm => (fm, 0)
  | fuel + 1, left, r, fm =>
    if left < r then
      let mid := (left + r - 1) / 2
      if p mid then
        let rest := bsearchGo p fuel (mid + 1) r fm
        (rest.1, rest.2 + 1)
      else
        let rest := bsearchGo p fuel left mid mid
        (rest.1, rest.2 + 1)
    else (fm, 0)

/-- The binary-search phase on a version list: left = 0, right = count-1,
first_missing = count, probing f"{variant}-{versions[mid]}". -/
def bsearchRun (versions : List String) (variant : String)
    (probe : String → Bool) : Nat × Nat :=
  bsearchGo (fun i => probe (mkTag variant (versions.getD i "")))
    versions.length 0 versions.length versions.length

/-- Index first_missing produced by the binary-search phase. -/
def first_missing (versions : List String) (variant : String)
    (probe : String → Bool) : Nat :=
  (bsearchRun versions variant probe).1

/-- The first collection loop (for i in range(first_missing, count)):
append each version not yet in seen to result and add it to seen.
Returns (appended versions, final seen). -/
def collectNew : List String → List String → List String × List String
  | [], seen => ([], seen)
  | v :: vs, seen =>
    if v ∈ seen then collectNew vs seen
    else
      let rest := collectNew vs (v :: seen)
      (v :: rest.1, rest.2)

/-- The gap-check loop (for i in range(check_start, first_missing)):
probe each version not yet in seen and append it when the probe says it
is missing.  The short-circuit (version not in seen and not check(...))
means a version already in seen is not probed.  Returns
(appended versions, final seen, number of probes). -/
def collectNewMissing (probe : String → Bool) (variant : String) :
    List String → List String → List String × List String × Nat
  | [], seen => ([], seen, 0)
  | v :: vs, seen =>
    if v ∈ seen then collectNewMissing probe variant vs seen
    else if probe (mkTag variant v) then
      let rest := collectNewMissing probe variant vs seen
      (rest.1, rest.2.1, rest.2.2 + 1)
    else
      let rest := collectNewMissing probe variant vs (v :: seen)
      (v :: rest.1, rest.2.1, rest.2.2 + 1)

/-- Instrumented embedding of filter_versions_binary_search: the first
component is the returned list (none models the ValueError raised by
sorted's key calls when some collected string is unparseable), the
second is the total number of registry probes made. -/
def filterI (versions : List String) (variant : String)
    (probe : String → Bool) (force_full_sync : Bool) :
    Option (List String) × Nat :=
  if versions.isEmpty then (some [], 0)
  else if force_full_sync then (some versions, 0)
  else
    let bs := bsearchRun versions variant probe
    let fm := bs.1
    let t := collectNew (versions.drop fm) []
    let check_start := fm - 5
    let w := collectNewMissing probe variant
      ((versions.drop check_start).take (fm - check_start)) t.2
    let result := t.1 ++ w.1
    (if result.all (fun v => (version_sort_key v).isSome) then
      some (result.insertionSort vle)
    else none,
    bs.2 + w.2.2)

/-- Embedding of filter_versions_binary_search (the returned list). -/
def filter_versions_binary_search (versions : List String) (variant : String)
    (probe : String → Bool) (force_full_sync : Bool) : Option (List String) :=
  (filterI versions variant probe force_full_sync).1

example :
    filter_versions_binary_search ["1.0.0", "1.0.1", "1.0.2"] "official"
      (fun _ => false) false = some ["1.0.0", "1.0.1", "1.0.2"] := by decide
example :
    filter_versions_binary_search ["1.0.0", "1.0.1", "1.0.2"] "official"
      (fun _ => true) false = some [] := by decide
example :
    filter_versions_binary_search ["1.0.0", "1.0.1", "1.0.2"] "official"
      (fun t => t == "official-1.0.0") false = some ["1.0.1", "1.0.2"] := by decide
example :
    filter_versions_binary_search ["1.0.0", "1.0.0"] "official"
      (fun _ => false) false = some ["1.0.0"] := by decide

/-- A nonempty run of decimal digits: one \d+ group of the grammar. -/
def IsDigits (l : List Char) : Prop := l ≠ [] ∧ ∀ c ∈ l, c.isDigit = true

/-- The literal characters of the extension suffix marker -ext-v. -/
def extMark : List Char := ['-', 'e', 'x', 't', '-', 'v']

/-- Membership in the language of the claim grammar
^(\d+)\.(\d+)\.(\d+)(?:-ext-v(\d+)(?:\.(\d+))?)?$, stated as the
existence of a decomposition into digit groups and literal separators. -/
def matchesGrammar (s : String) : Prop :=
  ∃ a b c : List Char, IsDigits a ∧ IsDigits b ∧ IsDigits c ∧
    (s.data = a ++ '.' :: (b ++ '.' :: c) ∨
      ∃ d : List Char, IsDigits d ∧
        (s.data = a ++ '.' :: (b ++ '.' :: (c ++ (extMark ++ d))) ∨
          ∃ e : List Char, IsDigits e ∧
            s.data = a ++ '.' :: (b ++ '.' :: (c ++ (extMark ++ (d ++ '.' :: e))))))

/-- A digit run with no redundant leading zero (the canonical decimal
spelling of its value). -/
def CanonDigits (l : List Char) : Prop :=
  IsDigits l ∧ (l.head? = some '0' → l = ['0'])

/-- matchesGrammar with every digit group in canonical spelling. -/
def matchesGrammarCanon (s : String) : Prop :=
  ∃ a b c : List Char, CanonDigits a ∧ CanonDigits b ∧ CanonDigits c ∧
    (s.data = a ++ '.' :: (b ++ '.' :: c) ∨
      ∃ d : List Char, CanonDigits d ∧
        (s.data = a ++ '.' :: (b ++ '.' :: (c ++ (extMark ++ d))) ∨
          ∃ e : List Char, CanonDigits e ∧
            s.data = a ++ '.' :: (b ++ '.' :: (c ++ (extMark ++ (d ++ '.' :: e))))))

/-- Big-endian decimal digit characters of n (empty for n = 0); the fuel
argument makes the recursion structural and any fuel >= n is enough. -/
def natDigitsAux : Nat → Nat → List Char
  | 0, _ => []
  | fuel + 1, n =>
    if n = 0 then []
    else natDigitsAux fuel (n / 10) ++ [Nat.digitChar (n % 10)]

/-- Decimal spelling of a natural number, as Python str()/f-strings
produce it. -/
def natChars (n : Nat) : List Char :=
  if n = 0 then ['0'] else natDigitsAux n n

/-- Modelled from the spec: the render operation of the Version Model
(section 4.1) is absent from the source (the scripts interpolate the raw
version string instead of re-rendering the parsed tuple); following the
spec's words it reconstructs "{major}.{minor}.{patch}" optionally
followed by "-ext-v{extMajor}" or "-ext-v{extMajor}.{extMinor}",
according to whether the extension minor was explicitly present. -/
def render (t : Nat × Nat × Nat × Option Nat × Option Nat) : String :=
  match t with
  | (major, minor, patch, em, en) =>
    ⟨natChars major ++ '.' :: (natChars minor ++ '.' :: (natChars patch ++
      match em with
      | none => []
      | some e =>
        extMark ++ (natChars e ++
          match en with
          | none => []
          | some x => '.' :: natChars x)))⟩

example : render (6, 0, 0, none, none) = "6.0.0" := by decide
example : render (6, 0, 1, some 3, some 3) = "6.0.1-ext-v3.3" := by decide
example : render (12, 0, 40, some 10, none) = "12.0.40-ext-v10" := by decide
example : (parse_version_parts "06.0.0").map render = some "6.0.0" := by decide

/-- The input either is exhausted or continues with a non-digit. -/
def HeadNotDigit : List Char → Prop
  | [] => True
  | c :: _ => c.isDigit = false

theorem takeWhile_digits_append (a rest : List Char)
    (ha : ∀ c ∈ a, c.isDigit = true) (hr : HeadNotDigit rest) :
    (a ++ rest).takeWhile Char.isDigit = a := by
  induction a with
  | nil =>
    cases rest with
    | nil => rfl
    | cons x xs =>
      simp only [HeadNotDigit] at hr
      simp [List.takeWhile, hr]
  | cons x xs ih =>
    have hx : x.isDigit = true := ha x (by simp)
    have hrec := ih (fun c hc => ha c (by simp [hc]))
    simp [List.takeWhile_cons, hx, hrec]

theorem dropWhile_digits_append (a rest : List Char)
    (ha : ∀ c ∈ a, c.isDigit = true) (hr : HeadNotDigit rest) :
    (a ++ rest).dropWhile Char.isDigit = rest := by
  induction a with
  | nil =>
    cases rest with
    | nil => rfl
    | cons x xs =>
      simp only [HeadNotDigit] at hr
      simp [List.dropWhile, hr]
  | cons x xs ih =>
    have hx : x.isDigit = true := ha x (by simp)
    simp only [List.cons_append, List.dropWhile_cons, hx]
    exact ih (fun c hc => ha c (by simp [hc]))

theorem parseNum_eq (a rest : List Char) (ha : IsDigits a)
    (hr : HeadNotDigit rest) :
    parseNum (a ++ rest) = some (digitsToNat a, rest) := by
  unfold parseNum
  rw [takeWhile_digits_append a rest ha.2 hr, dropWhile_digits_append a rest ha.2 hr]
  simp [List.isEmpty_iff, ha.1]

theorem headNotDigit_dropWhile (l : List Char) :
    HeadNotDigit (l.dropWhile Char.isDigit) := by
  induction l with
  | nil => trivial
  | cons x xs ih =>
    by_cases hx : x.isDigit = true
    · simpa [List.dropWhile_cons, hx] using ih
    · simp only [Bool.not_eq_true] at hx
      simp [List.dropWhile_cons, hx, HeadNotDigit]

theorem parseNum_sound (l : List Char) (n : Nat) (rest : List Char)
    (h : parseNum l = some (n, rest)) :
    ∃ ds : List Char, IsDigits ds ∧ l = ds ++ rest ∧ n = digitsToNat ds ∧
      HeadNotDigit rest := by
  simp only [parseNum] at h
  split at h
  · simp at h
  · rename_i hne
    simp only [Option.some.injEq, Prod.mk.injEq] at h
    obtain ⟨hn, hrest⟩ := h
    refine ⟨l.takeWhile Char.isDigit,
      ⟨?_, fun c hc => List.mem_takeWhile_imp hc⟩, ?_, hn.symm, ?_⟩
    · intro hnil
      rw [hnil] at hne
      simp at hne
    · rw [← hrest]
      exact (List.takeWhile_append_dropWhile (p := Char.isDigit) (l := l)).symm
    · rw [← hrest]
      exact headNotDigit_dropWhile l

theorem parseNum_eq_all (a : List Char) (ha : IsDigits a) :
    parseNum a = some (digitsToNat a, []) := by
  have h := parseNum_eq a [] ha trivial
  simpa using h

theorem parse_eq_base (s : String) (a b c : List Char)
    (ha : IsDigits a) (hb : IsDigits b) (hc : IsDigits c)
    (hs : s.data = a ++ '.' :: (b ++ '.' :: c)) :
    parse_version_parts s =
      some (digitsToNat a, digitsToNat b, digitsToNat c, none, none) := by
  unfold parse_version_parts
  rw [hs]
  rw [parseNum_eq a ('.' :: (b ++ '.' :: c)) ha rfl]
  simp only
  rw [parseNum_eq b ('.' :: c) hb rfl]
  simp only
  rw [parseNum_eq_all c hc]

theorem parse_eq_ext1 (s : String) (a b c d : List Char)
    (ha : IsDigits a) (hb : IsDigits b) (hc : IsDigits c) (hd : IsDigits d)
    (hs : s.data = a ++ '.' :: (b ++ '.' :: (c ++ (extMark ++ d)))) :
    parse_version_parts s =
      some (digitsToNat a, digitsToNat b, digitsToNat c,
        some (digitsToNat d), none) := by
  unfold parse_version_parts
  rw [hs]
  rw [parseNum_eq a ('.' :: (b ++ '.' :: (c ++ (extMark ++ d)))) ha rfl]
  simp only
  rw [parseNum_eq b ('.' :: (c ++ (extMark ++ d))) hb rfl]
  simp only
  rw [parseNum_eq c (extMark ++ d) hc rfl]
  simp only [extMark, List.cons_append, List.nil_append]
  rw [parseNum_eq_all d hd]

theorem parse_eq_ext2 (s : String) (a b c d e : List Char)
    (ha : IsDigits a) (hb : IsDigits b) (hc : IsDigits c) (hd : IsDigits d)
    (he : IsDigits e)
    (hs : s.data = a ++ '.' :: (b ++ '.' :: (c ++ (extMark ++ (d ++ '.' :: e))))) :
    parse_version_parts s =
      some (digitsToNat a, digitsToNat b, digitsToNat c,
        some (digitsToNat d), some (digitsToNat e)) := by
  unfold parse_version_parts
  rw [hs]
  rw [parseNum_eq a ('.' :: (b ++ '.' :: (c ++ (extMark ++ (d ++ '.' :: e))))) ha rfl]
  simp only
  rw [parseNum_eq b ('.' :: (c ++ (extMark ++ (d ++ '.' :: e)))) hb rfl]
  simp only
  rw [parseNum_eq c (extMark ++ (d ++ '.' :: e)) hc rfl]
  simp only [extMark, List.cons_append, List.nil_append]
  rw [parseNum_eq d ('.' :: e) hd rfl]
  simp only
  rw [parseNum_eq_all e he]

theorem parse_sound (s : String) (t : Nat × Nat × Nat × Option Nat × Option Nat)
    (h : parse_version_parts s = some t) : matchesGrammar s := by
  unfold parse_version_parts at h
  split at h
  · exact Option.noConfusion h
  · split at h
    · split at h
      · exact Option.noConfusion h
      · split at h
        · split at h
          · exact Option.noConfusion h
          · split at h
            · -- base form: remainder after the patch group is empty
              rename parseNum _ = some (_, []) => hp3
              rename parseNum s.data = some _ => hp1
              rename parseNum _ = some (_, '.' :: _) => hp2
              obtain ⟨a, ha, hsa, -, -⟩ := parseNum_sound _ _ _ hp1
              obtain ⟨b, hb, hsb, -, -⟩ := parseNum_sound _ _ _ hp2
              obtain ⟨c, hc, hsc, -, -⟩ := parseNum_sound _ _ _ hp3
              refine ⟨a, b, c, ha, hb, hc, Or.inl ?_⟩
              rw [hsa, hsb]
              simpa using hsc
            · -- extension form
              split at h
              · exact Option.noConfusion h
              · split at h
                · -- extension major only
                  rename parseNum _ = some (_, []) => hp4
                  rename parseNum _ = some (_, '-' :: _) => hp3
                  rename parseNum s.data = some _ => hp1
                  rename parseNum _ = some (_, '.' :: _) => hp2
                  obtain ⟨a, ha, hsa, -, -⟩ := parseNum_sound _ _ _ hp1
                  obtain ⟨b, hb, hsb, -, -⟩ := parseNum_sound _ _ _ hp2
                  obtain ⟨c, hc, hsc, -, -⟩ := parseNum_sound _ _ _ hp3
                  obtain ⟨d, hd, hsd, -, -⟩ := parseNum_sound _ _ _ hp4
                  refine ⟨a, b, c, ha, hb, hc, Or.inr ⟨d, hd, Or.inl ?_⟩⟩
                  rw [hsa, hsb, hsc]
                  simp [extMark, hsd]
                · -- extension major and minor
                  split at h
                  · rename parseNum _ = some (_, []) => hp5
                    rename parseNum _ = some (_, '-' :: _) => hp3
                    rename parseNum s.data = some _ => hp1
                    rename parseNum _ = some (_, '.' :: _) => hp4
                    revert hp4
                    rename parseNum _ = some (_, '.' :: _) => hp2
                    intro hp4
                    obtain ⟨a, ha, hsa, -, -⟩ := parseNum_sound _ _ _ hp1
                    obtain ⟨b, hb, hsb, -, -⟩ := parseNum_sound _ _ _ hp2
                    obtain ⟨c, hc, hsc, -, -⟩ := parseNum_sound _ _ _ hp3
                    obtain ⟨d, hd, hsd, -, -⟩ := parseNum_sound _ _ _ hp4
                    obtain ⟨e, he, hse, -, -⟩ := parseNum_sound _ _ _ hp5
                    refine ⟨a, b, c, ha, hb, hc,
                      Or.inr ⟨d, hd, Or.inr ⟨e, he, ?_⟩⟩⟩
                    rw [hsa, hsb, hsc]
                    simp [extMark, hsd, hse]
                  · exact Option.noConfusion h
                · exact Option.noConfusion h
            · exact Option.noConfusion h
        · exact Option.noConfusion h
    · exact Option.noConfusion h

instance (l : List Char) : Decidable (IsDigits l) := by
  unfold IsDigits; infer_instance

instance (l : List Char) : Decidable (CanonDigits l) := by
  unfold CanonDigits; infer_instance

/-- C6 (confirmed): parse_version_parts succeeds exactly on the strings of
the grammar (the anchored pattern), returning the numeric components as
natural numbers, and fails (ValueError, modelled as none) on every string
outside the grammar. -/
theorem c6_parse_iff_grammar (s : String) :
    (parse_version_parts s).isSome = true ↔ matchesGrammar s := by
  constructor
  · intro h
    obtain ⟨t, ht⟩ := Option.isSome_iff_exists.mp h
    exact parse_sound s t ht
  · rintro ⟨a, b, c, ha, hb, hc, hcase⟩
    rcases hcase with hs | ⟨d, hd, hs | ⟨e, he, hs⟩⟩
    · rw [parse_eq_base s a b c ha hb hc hs]; rfl
    · rw [parse_eq_ext1 s a b c d ha hb hc hd hs]; rfl
    · rw [parse_eq_ext2 s a b c d e ha hb hc hd he hs]; rfl

theorem digitChar_toNat (d : Nat) (h : d < 10) :
    (Nat.digitChar d).toNat = 48 + d := by
  interval_cases d <;> rfl

theorem digitChar_isDigit (d : Nat) (h : d < 10) :
    (Nat.digitChar d).isDigit = true := by
  interval_cases d <;> rfl

theorem char_toNat_range_of_isDigit (c : Char) (h : c.isDigit = true) :
    48 ≤ c.toNat ∧ c.toNat ≤ 57 := by
  simp only [Char.isDigit, decide_eq_true_eq, Bool.and_eq_true] at h
  obtain ⟨h1, h2⟩ := h
  constructor
  · simpa [Char.le_def, Char.toNat] using h1
  · simpa [Char.le_def, Char.toNat] using h2

theorem digitChar_of_digit (c : Char) (h : c.isDigit = true) :
    Nat.digitChar (c.toNat - 48) = c := by
  obtain ⟨h1, h2⟩ := char_toNat_range_of_isDigit c h
  apply Char.ext
  apply UInt32.ext
  have hv : (Nat.digitChar (c.toNat - 48)).toNat = 48 + (c.toNat - 48) :=
    digitChar_toNat _ (by omega)
  have : (Nat.digitChar (c.toNat - 48)).toNat = c.toNat := by omega
  exact this

theorem natDigitsAux_zero (fuel : Nat) : natDigitsAux fuel 0 = [] := by
  cases fuel <;> rfl

theorem natDigitsAux_fuel :
    ∀ f1 f2 n : Nat, n ≤ f1 → n ≤ f2 →
      natDigitsAux f1 n = natDigitsAux f2 n := by
  intro f1
  induction f1 with
  | zero =>
    intro f2 n h1 _
    interval_cases n
    rw [natDigitsAux_zero, natDigitsAux_zero]
  | succ f1' ih =>
    intro f2 n h1 h2
    by_cases hn : n = 0
    · rw [hn, natDigitsAux_zero, natDigitsAux_zero]
    · obtain ⟨f2', rfl⟩ : ∃ k, f2 = k + 1 := ⟨f2 - 1, by omega⟩
      show (if n = 0 then [] else _) = (if n = 0 then [] else _)
      rw [if_neg hn, if_neg hn]
      have hdiv : n / 10 ≤ f1' := by omega
      have hdiv2 : n / 10 ≤ f2' := by omega
      rw [ih f2' (n / 10) hdiv hdiv2]

theorem digitsToNat_append_singleton (xs : List Char) (c : Char) :
    digitsToNat (xs ++ [c]) = 10 * digitsToNat xs + (c.toNat - 48) := by
  simp [digitsToNat, List.foldl_append]

theorem digitsToNat_natDigitsAux :
    ∀ fuel n : Nat, n ≤ fuel → digitsToNat (natDigitsAux fuel n) = n := by
  intro fuel
  induction fuel with
  | zero =>
    intro n h
    interval_cases n
    rw [natDigitsAux_zero]
    rfl
  | succ fuel' ih =>
    intro n h
    by_cases hn : n = 0
    · rw [hn, natDigitsAux_zero]; rfl
    · show digitsToNat (if n = 0 then [] else _) = n
      rw [if_neg hn, digitsToNat_append_singleton,
        ih (n / 10) (by omega), digitChar_toNat (n % 10) (by omega)]
      omega

theorem natDigitsAux_digits :
    ∀ fuel n : Nat, ∀ c ∈ natDigitsAux fuel n, c.isDigit = true := by
  intro fuel
  induction fuel with
  | zero => intro n c hc; simp [natDigitsAux] at hc
  | succ fuel' ih =>
    intro n c hc
    by_cases hn : n = 0
    · rw [hn, natDigitsAux_zero] at hc; simp at hc
    · rw [show natDigitsAux (fuel' + 1) n
          = (if n = 0 then [] else natDigitsAux fuel' (n / 10)
              ++ [Nat.digitChar (n % 10)]) from rfl, if_neg hn] at hc
      rcases List.mem_append.mp hc with h | h
      · exact ih (n / 10) c h
      · simp only [List.mem_singleton] at h
        rw [h]
        exact digitChar_isDigit (n % 10) (by omega)

theorem natDigitsAux_ne_nil (fuel n : Nat) (hn : 0 < n) (hf : n ≤ fuel) :
    natDigitsAux fuel n ≠ [] := by
  obtain ⟨fuel', rfl⟩ : ∃ k, fuel = k + 1 := ⟨fuel - 1, by omega⟩
  show (if n = 0 then [] else _) ≠ []
  rw [if_neg (by omega)]
  simp

theorem natDigitsAux_head :
    ∀ fuel n : Nat, 0 < n → n ≤ fuel →
      (natDigitsAux fuel n).head? ≠ some '0' := by
  intro fuel
  induction fuel with
  | zero => intro n h1 h2; omega
  | succ fuel' ih =>
    intro n h1 h2
    show (if n = 0 then [] else natDigitsAux fuel' (n / 10)
        ++ [Nat.digitChar (n % 10)]).head? ≠ some '0'
    rw [if_neg (by omega)]
    by_cases hsmall : n < 10
    · rw [show n / 10 = 0 by omega, natDigitsAux_zero]
      simp only [List.nil_append, List.head?_cons, ne_eq, Option.some.injEq]
      intro hC
      have h1 := congrArg Char.toNat hC
      rw [digitChar_toNat (n % 10) (by omega)] at h1
      have h0 : ('0' : Char).toNat = 48 := rfl
      rw [h0] at h1
      omega
    · have hpos : 0 < n / 10 := by omega
      have hle : n / 10 ≤ fuel' := by omega
      have hne := natDigitsAux_ne_nil fuel' (n / 10) hpos hle
      rw [List.head?_append_of_ne_nil _ hne]
      exact ih (n / 10) hpos hle

theorem canonDigits_natChars (n : Nat) : CanonDigits (natChars n) := by
  by_cases hn : n = 0
  · rw [hn]
    show CanonDigits ['0']
    exact ⟨⟨by simp, by decide⟩, fun _ => rfl⟩
  · unfold natChars
    rw [if_neg hn]
    exact ⟨⟨natDigitsAux_ne_nil n n (by omega) le_rfl,
      natDigitsAux_digits n n⟩, fun hh =>
        absurd hh (natDigitsAux_head n n (by omega) le_rfl)⟩

theorem digitsToNat_natChars (n : Nat) : digitsToNat (natChars n) = n := by
  by_cases hn : n = 0
  · rw [hn]; rfl
  · unfold natChars
    rw [if_neg hn]
    exact digitsToNat_natDigitsAux n n le_rfl

theorem foldl_digits_ge (t : List Char) :
    ∀ acc : Nat, acc ≤ t.foldl (fun n c => 10 * n + (c.toNat - 48)) acc := by
  induction t with
  | nil => intro acc; exact le_rfl
  | cons x xs ih =>
    intro acc
    have h1 : acc ≤ 10 * acc + (x.toNat - 48) := by omega
    exact le_trans h1 (by simpa using ih (10 * acc + (x.toNat - 48)))

theorem digitsToNat_pos (g : List Char) (hne : g ≠ [])
    (hh : g.head? ≠ some '0') (hdig : ∀ c ∈ g, c.isDigit = true) :
    0 < digitsToNat g := by
  obtain ⟨h, t, rfl⟩ := List.exists_cons_of_ne_nil hne
  have hd : h.isDigit = true := hdig h (by simp)
  obtain ⟨h48, h57⟩ := char_toNat_range_of_isDigit h hd
  have hh0 : h ≠ '0' := by intro he; rw [he] at hh; simp at hh
  have hgt : 0 < h.toNat - 48 := by
    rcases Nat.lt_or_ge 48 h.toNat with hlt | hge
    · omega
    · exfalso
      apply hh0
      have hc := digitChar_of_digit h hd
      rw [show h.toNat - 48 = 0 by omega] at hc
      exact hc.symm
  have heq : digitsToNat (h :: t)
      = t.foldl (fun n c => 10 * n + (c.toNat - 48)) (h.toNat - 48) := by
    simp [digitsToNat]
  rw [heq]
  exact lt_of_lt_of_le hgt (foldl_digits_ge t _)

theorem natChars_digitsToNat (g : List Char) (hg : CanonDigits g) :
    natChars (digitsToNat g) = g := by
  induction g using List.reverseRecOn with
  | nil => exact absurd rfl hg.1.1
  | append_singleton g' c ih =>
    have hcd : c.isDigit = true := hg.1.2 c (by simp)
    obtain ⟨c48, c57⟩ := char_toNat_range_of_isDigit c hcd
    rw [digitsToNat_append_singleton]
    by_cases hg' : g' = []
    · subst hg'
      rw [show digitsToNat [] = 0 from rfl, Nat.mul_zero, Nat.zero_add]
      by_cases hc0 : c.toNat - 48 = 0
      · rw [hc0]
        have hc := digitChar_of_digit c hcd
        rw [hc0] at hc
        rw [show natChars 0 = ['0'] from rfl]
        rw [show ('0' : Char) = Nat.digitChar 0 from rfl, hc]
        rfl
      · obtain ⟨k, hk⟩ : ∃ k, c.toNat - 48 = k + 1 := ⟨c.toNat - 49, by omega⟩
        rw [hk]
        unfold natChars
        rw [if_neg (by omega)]
        show (if k + 1 = 0 then [] else natDigitsAux k ((k + 1) / 10)
            ++ [Nat.digitChar ((k + 1) % 10)]) = [] ++ [c]
        rw [if_neg (by omega), show (k + 1) / 10 = 0 by omega, natDigitsAux_zero,
          show (k + 1) % 10 = k + 1 by omega]
        have hc := digitChar_of_digit c hcd
        rw [hk] at hc
        rw [hc]
    · have hne : g' ≠ [] := hg'
      have hh' : g'.head? ≠ some '0' := by
        intro hsome
        have hhead : (g' ++ [c]).head? = some '0' := by
          rw [List.head?_append_of_ne_nil _ hne]; exact hsome
        have h01 := hg.2 hhead
        apply hne
        cases g' with
        | nil => rfl
        | cons x xs =>
          exfalso
          have hlen := congrArg List.length h01
          rw [List.length_append] at hlen
          simp only [List.length_cons, List.length_nil] at hlen
          omega
      have hgdig' : ∀ x ∈ g', x.isDigit = true :=
        fun x hx => hg.1.2 x (by simp [hx])
      have hcanon' : CanonDigits g' := ⟨⟨hne, hgdig'⟩, fun hh0 => absurd hh0 hh'⟩
      have hvpos : 0 < digitsToNat g' := digitsToNat_pos g' hne hh' hgdig'
      have hih := ih hcanon'
      have hdlt : c.toNat - 48 < 10 := by omega
      unfold natChars
      rw [if_neg (by omega)]
      obtain ⟨w, hw⟩ : ∃ w, 10 * digitsToNat g' + (c.toNat - 48) = w + 1 :=
        ⟨10 * digitsToNat g' + (c.toNat - 48) - 1, by omega⟩
      rw [hw]
      show (if w + 1 = 0 then [] else natDigitsAux w ((w + 1) / 10)
          ++ [Nat.digitChar ((w + 1) % 10)]) = g' ++ [c]
      rw [if_neg (by omega)]
      have hdiv : (w + 1) / 10 = digitsToNat g' := by omega
      have hmod : (w + 1) % 10 = c.toNat - 48 := by omega
      rw [hdiv, hmod]
      congr 1
      · rw [natDigitsAux_fuel w (digitsToNat g') (digitsToNat g') (by omega) le_rfl]
        unfold natChars at hih
        rw [if_neg (by omega)] at hih
        exact hih
      · rw [digitChar_of_digit c hcd]

theorem natChars_zero : natChars 0 = ['0'] := rfl

theorem isDigits_natChars (n : Nat) : IsDigits (natChars n) :=
  (canonDigits_natChars n).1

/-- C7 (amended): render is a left inverse of parse on grammar strings
whose numeric groups are canonically spelled (no redundant leading
zeros); the original claim over all valid strings fails on "06.0.0". -/
theorem c7_roundtrip_canonical (s : String) (h : matchesGrammarCanon s) :
    (parse_version_parts s).map render = some s := by
  obtain ⟨a, b, c, ha, hb, hc, hcase⟩ := h
  rcases hcase with hs | ⟨d, hd, hs | ⟨e, he, hs⟩⟩
  · rw [parse_eq_base s a b c ha.1 hb.1 hc.1 hs]
    simp only [Option.map_some']
    refine congrArg some (String.ext ?_)
    show natChars (digitsToNat a) ++ '.' :: (natChars (digitsToNat b)
      ++ '.' :: (natChars (digitsToNat c) ++ [])) = s.data
    rw [natChars_digitsToNat a ha, natChars_digitsToNat b hb,
      natChars_digitsToNat c hc, List.append_nil, hs]
  · rw [parse_eq_ext1 s a b c d ha.1 hb.1 hc.1 hd.1 hs]
    simp only [Option.map_some']
    refine congrArg some (String.ext ?_)
    show natChars (digitsToNat a) ++ '.' :: (natChars (digitsToNat b)
      ++ '.' :: (natChars (digitsToNat c)
        ++ (extMark ++ (natChars (digitsToNat d) ++ [])))) = s.data
    rw [natChars_digitsToNat a ha, natChars_digitsToNat b hb,
      natChars_digitsToNat c hc, natChars_digitsToNat d hd,
      List.append_nil, hs]
  · rw [parse_eq_ext2 s a b c d e ha.1 hb.1 hc.1 hd.1 he.1 hs]
    simp only [Option.map_some']
    refine congrArg some (String.ext ?_)
    show natChars (digitsToNat a) ++ '.' :: (natChars (digitsToNat b)
      ++ '.' :: (natChars (digitsToNat c)
        ++ (extMark ++ (natChars (digitsToNat d)
          ++ '.' :: natChars (digitsToNat e))))) = s.data
    rw [natChars_digitsToNat a ha, natChars_digitsToNat b hb,
      natChars_digitsToNat c hc, natChars_digitsToNat d hd,
      natChars_digitsToNat e he, hs]

theorem c7_roundtrip_canonical_witness :
    matchesGrammarCanon "6.0.1-ext-v3.3" ∧
      (parse_version_parts "6.0.1-ext-v3.3").map render
        = some "6.0.1-ext-v3.3" := by
  have hmg : matchesGrammarCanon "6.0.1-ext-v3.3" :=
    ⟨['6'], ['0'], ['1'], by decide, by decide, by decide,
      Or.inr ⟨['3'], by decide, Or.inr ⟨['3'], by decide, by decide⟩⟩⟩
  exact ⟨hmg, c7_roundtrip_canonical _ hmg⟩

/-- C7 (counterexample): "06.0.0" matches the grammar, so it is a valid
input string, yet re-rendering its parse yields "6.0.0", not the original
text: the round-trip fails on groups with redundant leading zeros. -/
theorem c7_counterexample :
    matchesGrammar "06.0.0" ∧
      (parse_version_parts "06.0.0").map render = some "6.0.0" ∧
      (parse_version_parts "06.0.0").map render ≠ some "06.0.0" :=
  ⟨⟨['0', '6'], ['0'], ['0'], by decide, by decide, by decide,
    Or.inl (by decide)⟩, by decide, by decide⟩

theorem parse_render_ext (M m p N : Nat) (en : Option Nat) :
    parse_version_parts (render (M, m, p, some N, en))
      = some (M, m, p, some N, en) := by
  cases en with
  | none =>
    have hs : (render (M, m, p, some N, (none : Option Nat))).data
        = natChars M ++ '.' :: (natChars m ++ '.' :: (natChars p
          ++ (extMark ++ natChars N))) := by
      show natChars M ++ '.' :: (natChars m ++ '.' :: (natChars p
        ++ (extMark ++ (natChars N ++ [])))) = _
      rw [List.append_nil]
    rw [parse_eq_ext1 _ _ _ _ _ (isDigits_natChars M) (isDigits_natChars m)
      (isDigits_natChars p) (isDigits_natChars N) hs]
    rw [digitsToNat_natChars, digitsToNat_natChars, digitsToNat_natChars,
      digitsToNat_natChars]
  | some x =>
    have hs : (render (M, m, p, some N, some x)).data
        = natChars M ++ '.' :: (natChars m ++ '.' :: (natChars p
          ++ (extMark ++ (natChars N ++ '.' :: natChars x)))) := rfl
    rw [parse_eq_ext2 _ _ _ _ _ _ (isDigits_natChars M) (isDigits_natChars m)
      (isDigits_natChars p) (isDigits_natChars N) (isDigits_natChars x) hs]
    rw [digitsToNat_natChars, digitsToNat_natChars, digitsToNat_natChars,
      digitsToNat_natChars, digitsToNat_natChars]

/-- C10 (confirmed): for any base version and extension major N, the raw
strings of the forms ...-ext-vN and ...-ext-vN.0 are distinct strings with
the same sort key (both keys end in (N, 0)), so distinct strings can tie
in the canonical ordering and both survive string-level deduplication. -/
theorem c10_ext_minor_tie (M m p N : Nat) :
    version_sort_key (render (M, m, p, some N, none))
        = version_sort_key (render (M, m, p, some N, some 0)) ∧
      version_sort_key (render (M, m, p, some N, none))
        = some ⟨M, m, p, (N : Int), 0⟩ ∧
      render (M, m, p, some N, none) ≠ render (M, m, p, some N, some 0) := by
  have h1 : version_sort_key (render (M, m, p, some N, none))
      = some ⟨M, m, p, (N : Int), ((0 : Nat) : Int)⟩ := by
    unfold version_sort_key
    rw [parse_render_ext M m p N none]
    rfl
  have h2 : version_sort_key (render (M, m, p, some N, some 0))
      = some ⟨M, m, p, (N : Int), ((0 : Nat) : Int)⟩ := by
    unfold version_sort_key
    rw [parse_render_ext M m p N (some 0)]
    rfl
  refine ⟨by rw [h1, h2], by rw [h1]; rfl, ?_⟩
  intro heq
  have hdata : (natChars M ++ '.' :: (natChars m ++ '.' :: (natChars p
        ++ (extMark ++ (natChars N ++ []))))).length
      = (natChars M ++ '.' :: (natChars m ++ '.' :: (natChars p
        ++ (extMark ++ (natChars N ++ '.' :: natChars 0))))).length :=
    congrArg (fun l => List.length l) (congrArg String.data heq)
  simp [List.length_append, extMark, natChars_zero] at hdata

/-- Following the spec's words for compareKey (section 4.1): the tuple
(major, minor, patch, extRank, extMinorOrZero) where extRank is -1 with
no extension and extMajor otherwise, and extMinorOrZero is the extension
minor when present and 0 when absent.  Written only to compare against
the key the code computes. -/
def spec_compare_key (v : String) : Option SortKey :=
  (parse_version_parts v).map fun t =>
    match t with
    | (major, minor, patch, em, en) =>
      ⟨major, minor, patch,
        (match em with | none => (-1 : Int) | some e => (e : Int)),
        ((en.getD 0 : Nat) : Int)⟩

/-- C5 (counterexample): on the extensionless version "6.0.0" the key the
code computes ends in (-1, -1), while the claimed tuple ends in (-1, 0):
version_sort_key fills the last slot with -1, not 0, when no extension
suffix is present. -/
theorem c5_counterexample :
    version_sort_key "6.0.0" = some ⟨6, 0, 0, -1, -1⟩ ∧
      spec_compare_key "6.0.0" = some ⟨6, 0, 0, -1, 0⟩ ∧
      version_sort_key "6.0.0" ≠ spec_compare_key "6.0.0" :=
  ⟨by decide, by decide, by decide⟩

/-- C5 (amended): for every parsed version, version_sort_key returns
(major, minor, patch, -1, -1) when there is no extension suffix and
(major, minor, patch, extMajor, extMinor-or-0) otherwise; keys compare by
lexicographic tuple comparison. -/
theorem c5_key_shape (v : String) (M m p : Nat) (em en : Option Nat)
    (h : parse_version_parts v = some (M, m, p, em, en)) :
    (em = none → version_sort_key v = some ⟨M, m, p, -1, -1⟩) ∧
      (∀ e, em = some e → version_sort_key v
        = some ⟨M, m, p, (e : Int), ((en.getD 0 : Nat) : Int)⟩) ∧
      (∀ a b : SortKey, keyLE a b = true ↔ lexLE a b) := by
  refine ⟨?_, ?_, keyLE_iff_lexLE⟩
  · rintro rfl
    unfold version_sort_key
    rw [h]
    rfl
  · rintro e rfl
    unfold version_sort_key
    rw [h]
    rfl

theorem c5_key_shape_witness :
    parse_version_parts "6.0.1-ext-v3.3" = some (6, 0, 1, some 3, some 3) ∧
      (((some 3 : Option Nat) = none →
          version_sort_key "6.0.1-ext-v3.3" = some ⟨6, 0, 1, -1, -1⟩) ∧
        (∀ e, (some 3 : Option Nat) = some e →
          version_sort_key "6.0.1-ext-v3.3"
            = some ⟨6, 0, 1, (e : Int), (((some 3 : Option Nat).getD 0 : Nat) : Int)⟩) ∧
        (∀ a b : SortKey, keyLE a b = true ↔ lexLE a b)) := by
  have h : parse_version_parts "6.0.1-ext-v3.3"
      = some (6, 0, 1, some 3, some 3) := by decide
  exact ⟨h, c5_key_shape _ 6 0 1 (some 3) (some 3) h⟩

theorem bsearchGo_zero (p : Nat → Bool) (l r fm : Nat) :
    bsearchGo p 0 l r fm = (fm, 0) := rfl

theorem bsearchGo_stop (p : Nat → Bool) (fuel l r fm : Nat) (h : ¬l < r) :
    bsearchGo p (fuel + 1) l r fm = (fm, 0) := by
  unfold bsearchGo
  rw [if_neg h]

theorem bsearchGo_succ_lt (p : Nat → Bool) (fuel l r fm : Nat) (h : l < r) :
    bsearchGo p (fuel + 1) l r fm =
      if p ((l + r - 1) / 2)
      then ((bsearchGo p fuel ((l + r - 1) / 2 + 1) r fm).1,
        (bsearchGo p fuel ((l + r - 1) / 2 + 1) r fm).2 + 1)
      else ((bsearchGo p fuel l ((l + r - 1) / 2) ((l + r - 1) / 2)).1,
        (bsearchGo p fuel l ((l + r - 1) / 2) ((l + r - 1) / 2)).2 + 1) := by
  conv_lhs => rw [bsearchGo]
  rw [if_pos h]

theorem bsearchGo_fst_le (p : Nat → Bool) :
    ∀ fuel l r fm, fm ≤ r → (bsearchGo p fuel l r fm).1 ≤ r := by
  intro fuel
  induction fuel with
  | zero => intro l r fm h; exact h
  | succ f ih =>
    intro l r fm h
    by_cases hlr : l < r
    · rw [bsearchGo_succ_lt p f l r fm hlr]
      have hlt : (l + r - 1) / 2 < r := by omega
      by_cases hp : p ((l + r - 1) / 2) = true
      · rw [if_pos hp]
        exact ih _ r fm h
      · rw [if_neg hp]
        exact le_trans (ih l _ _ le_rfl) (by omega)
    · rw [bsearchGo_stop p f l r fm hlr]
      exact h

theorem bsearchGo_boundary (p : Nat → Bool) (b n : Nat)
    (h1 : ∀ i, i < b → p i = true)
    (h2 : ∀ i, i < n → b ≤ i → p i = false) :
    ∀ fuel l r, r - l ≤ fuel → l ≤ b → b ≤ r → r ≤ n →
      (bsearchGo p fuel l r r).1 = b := by
  intro fuel
  induction fuel with
  | zero =>
    intro l r hf hl hb hr
    rw [bsearchGo_zero]
    show r = b
    omega
  | succ f ih =>
    intro l r hf hl hb hr
    by_cases hlr : l < r
    · rw [bsearchGo_succ_lt p f l r r hlr]
      have hge : l ≤ (l + r - 1) / 2 := by omega
      have hlt : (l + r - 1) / 2 < r := by omega
      by_cases hp : p ((l + r - 1) / 2) = true
      · rw [if_pos hp]
        have hmb : (l + r - 1) / 2 < b := by
          by_contra hgeb
          push_neg at hgeb
          have hf2 := h2 _ (by omega) hgeb
          rw [hp] at hf2
          exact Bool.noConfusion hf2
        exact ih _ r (by omega) (by omega) hb hr
      · rw [if_neg hp]
        have hbm : b ≤ (l + r - 1) / 2 := by
          by_contra hltb
          push_neg at hltb
          exact hp (h1 _ hltb)
        exact ih l _ (by omega) hl hbm (by omega)
    · rw [bsearchGo_stop p f l r r hlr]
      show r = b
      omega

theorem bsearchGo_count (p : Nat → Bool) :
    ∀ fuel l r fm, r - l ≤ fuel →
      (bsearchGo p fuel l r fm).2
        ≤ if l < r then Nat.log 2 (r - l) + 1 else 0 := by
  intro fuel
  induction fuel with
  | zero =>
    intro l r fm hf
    rw [bsearchGo_zero]
    split <;> omega
  | succ f ih =>
    intro l r fm hf
    by_cases hlr : l < r
    · rw [bsearchGo_succ_lt p f l r fm hlr, if_pos hlr]
      have hge : l ≤ (l + r - 1) / 2 := by omega
      have hlt : (l + r - 1) / 2 < r := by omega
      by_cases hp : p ((l + r - 1) / 2) = true
      · rw [if_pos hp]
        have hrec := ih ((l + r - 1) / 2 + 1) r fm (by omega)
        by_cases hlt2 : (l + r - 1) / 2 + 1 < r
        · rw [if_pos hlt2] at hrec
          have hhalf : r - ((l + r - 1) / 2 + 1) ≤ (r - l) / 2 := by omega
          have hmono : Nat.log 2 (r - ((l + r - 1) / 2 + 1))
              ≤ Nat.log 2 ((r - l) / 2) := Nat.log_mono_right hhalf
          have hdiv : Nat.log 2 ((r - l) / 2) = Nat.log 2 (r - l) - 1 :=
            Nat.log_div_base 2 (r - l)
          have hpos : 0 < Nat.log 2 (r - l) :=
            Nat.log_pos (by omega) (by omega)
          omega
        · rw [if_neg hlt2] at hrec
          have hpos : 0 ≤ Nat.log 2 (r - l) := Nat.zero_le _
          omega
      · rw [if_neg hp]
        have hrec := ih l ((l + r - 1) / 2) ((l + r - 1) / 2) (by omega)
        by_cases hlt2 : l < (l + r - 1) / 2
        · rw [if_pos hlt2] at hrec
          have hhalf : (l + r - 1) / 2 - l ≤ (r - l) / 2 := by omega
          have hmono : Nat.log 2 ((l + r - 1) / 2 - l)
              ≤ Nat.log 2 ((r - l) / 2) := Nat.log_mono_right hhalf
          have hdiv : Nat.log 2 ((r - l) / 2) = Nat.log 2 (r - l) - 1 :=
            Nat.log_div_base 2 (r - l)
          have hpos : 0 < Nat.log 2 (r - l) :=
            Nat.log_pos (by omega) (by omega)
          omega
        · rw [if_neg hlt2] at hrec
          omega
    · rw [bsearchGo_stop p f l r fm hlr, if_neg hlr]

theorem collectNew_mem_fst :
    ∀ (l seen : List String) (x : String),
      x ∈ (collectNew l seen).1 ↔ x ∈ l ∧ x ∉ seen := by
  intro l
  induction l with
  | nil => intro seen x; simp [collectNew]
  | cons v vs ih =>
    intro seen x
    by_cases hv : v ∈ seen
    · rw [show collectNew (v :: vs) seen = collectNew vs seen from by
        rw [collectNew, if_pos hv]]
      rw [ih]
      constructor
      · rintro ⟨hx, hns⟩; exact ⟨by simp [hx], hns⟩
      · rintro ⟨hx, hns⟩
        rcases List.mem_cons.mp hx with rfl | hx'
        · exact absurd hv hns
        · exact ⟨hx', hns⟩
    · rw [show collectNew (v :: vs) seen
          = (v :: (collectNew vs (v :: seen)).1, (collectNew vs (v :: seen)).2)
        from by rw [collectNew, if_neg hv]]
      simp only [List.mem_cons, ih]
      constructor
      · rintro (rfl | ⟨hx, hns⟩)
        · exact ⟨Or.inl rfl, hv⟩
        · exact ⟨Or.inr hx, fun hc => hns (by simp [hc])⟩
      · rintro ⟨rfl | hx, hns⟩
        · exact Or.inl rfl
        · by_cases hxv : x = v
          · exact Or.inl hxv
          · exact Or.inr ⟨hx, by simp [hxv, hns]⟩

theorem collectNew_mem_snd :
    ∀ (l seen : List String) (x : String),
      x ∈ (collectNew l seen).2 ↔ x ∈ (collectNew l seen).1 ∨ x ∈ seen := by
  intro l
  induction l with
  | nil => intro seen x; simp [collectNew]
  | cons v vs ih =>
    intro seen x
    by_cases hv : v ∈ seen
    · rw [show collectNew (v :: vs) seen = collectNew vs seen from by
        rw [collectNew, if_pos hv]]
      exact ih seen x
    · rw [show collectNew (v :: vs) seen
          = (v :: (collectNew vs (v :: seen)).1, (collectNew vs (v :: seen)).2)
        from by rw [collectNew, if_neg hv]]
      simp only [List.mem_cons]
      rw [ih (v :: seen) x]
      simp only [List.mem_cons]
      tauto

theorem collectNew_nodup :
    ∀ (l seen : List String), (collectNew l seen).1.Nodup := by
  intro l
  induction l with
  | nil => intro seen; simp [collectNew]
  | cons v vs ih =>
    intro seen
    by_cases hv : v ∈ seen
    · rw [show collectNew (v :: vs) seen = collectNew vs seen from by
        rw [collectNew, if_pos hv]]
      exact ih seen
    · rw [show collectNew (v :: vs) seen
          = (v :: (collectNew vs (v :: seen)).1, (collectNew vs (v :: seen)).2)
        from by rw [collectNew, if_neg hv]]
      refine List.nodup_cons.mpr ⟨?_, ih (v :: seen)⟩
      intro hmem
      exact ((collectNew_mem_fst vs (v :: seen) v).mp hmem).2 (by simp)

theorem collectNew_eq_self :
    ∀ (l seen : List String), l.Nodup → (∀ x ∈ l, x ∉ seen) →
      (collectNew l seen).1 = l := by
  intro l
  induction l with
  | nil => intro seen _ _; rfl
  | cons v vs ih =>
    intro seen hnd hdisj
    have hv : v ∉ seen := hdisj v (by simp)
    rw [show collectNew (v :: vs) seen
        = (v :: (collectNew vs (v :: seen)).1, (collectNew vs (v :: seen)).2)
      from by rw [collectNew, if_neg hv]]
    have hvs : ∀ x ∈ vs, x ∉ v :: seen := by
      intro x hx
      simp only [List.mem_cons, not_or]
      exact ⟨fun hc => (List.nodup_cons.mp hnd).1 (hc ▸ hx),
        hdisj x (by simp [hx])⟩
    rw [ih (v :: seen) (List.nodup_cons.mp hnd).2 hvs]

theorem collectNewMissing_cons_seen (probe : String → Bool) (variant v : String)
    (vs seen : List String) (hv : v ∈ seen) :
    collectNewMissing probe variant (v :: vs) seen
      = collectNewMissing probe variant vs seen := by
  rw [collectNewMissing, if_pos hv]

theorem collectNewMissing_cons_true (probe : String → Bool) (variant v : String)
    (vs seen : List String) (hv : v ∉ seen)
    (hp : probe (mkTag variant v) = true) :
    collectNewMissing probe variant (v :: vs) seen
      = ((collectNewMissing probe variant vs seen).1,
        (collectNewMissing probe variant vs seen).2.1,
        (collectNewMissing probe variant vs seen).2.2 + 1) := by
  rw [collectNewMissing, if_neg hv, if_pos hp]

theorem collectNewMissing_cons_false (probe : String → Bool) (variant v : String)
    (vs seen : List String) (hv : v ∉ seen)
    (hp : probe (mkTag variant v) = false) :
    collectNewMissing probe variant (v :: vs) seen
      = (v :: (collectNewMissing probe variant vs (v :: seen)).1,
        (collectNewMissing probe variant vs (v :: seen)).2.1,
        (collectNewMissing probe variant vs (v :: seen)).2.2 + 1) := by
  rw [collectNewMissing, if_neg hv, if_neg (by simp [hp])]

theorem collectNewMissing_mem_fst (probe : String → Bool) (variant : String) :
    ∀ (l seen : List String) (x : String),
      x ∈ (collectNewMissing probe variant l seen).1 →
        x ∈ l ∧ x ∉ seen ∧ probe (mkTag variant x) = false := by
  intro l
  induction l with
  | nil => intro seen x hx; simp [collectNewMissing] at hx
  | cons v vs ih =>
    intro seen x hx
    by_cases hv : v ∈ seen
    · rw [collectNewMissing_cons_seen probe variant v vs seen hv] at hx
      obtain ⟨h1, h2, h3⟩ := ih seen x hx
      exact ⟨by simp [h1], h2, h3⟩
    · by_cases hp : probe (mkTag variant v) = true
      · rw [collectNewMissing_cons_true probe variant v vs seen hv hp] at hx
        obtain ⟨h1, h2, h3⟩ := ih seen x hx
        exact ⟨by simp [h1], h2, h3⟩
      · rw [collectNewMissing_cons_false probe variant v vs seen hv
          (Bool.not_eq_true _ ▸ hp)] at hx
        rcases List.mem_cons.mp hx with rfl | hx'
        · exact ⟨by simp, hv, Bool.not_eq_true _ ▸ hp⟩
        · obtain ⟨h1, h2, h3⟩ := ih (v :: seen) x hx'
          exact ⟨by simp [h1], fun hc => h2 (by simp [hc]), h3⟩

theorem collectNewMissing_mem_snd (probe : String → Bool) (variant : String) :
    ∀ (l seen : List String) (x : String),
      x ∈ (collectNewMissing probe variant l seen).2.1 ↔
        x ∈ (collectNewMissing probe variant l seen).1 ∨ x ∈ seen := by
  intro l
  induction l with
  | nil => intro seen x; simp [collectNewMissing]
  | cons v vs ih =>
    intro seen x
    by_cases hv : v ∈ seen
    · rw [collectNewMissing_cons_seen probe variant v vs seen hv]
      exact ih seen x
    · by_cases hp : probe (mkTag variant v) = true
      · rw [collectNewMissing_cons_true probe variant v vs seen hv hp]
        exact ih seen x
      · rw [collectNewMissing_cons_false probe variant v vs seen hv
          (Bool.not_eq_true _ ▸ hp)]
        simp only [List.mem_cons]
        rw [ih (v :: seen) x]
        simp only [List.mem_cons]
        tauto

theorem collectNewMissing_complete (probe : String → Bool) (variant : String) :
    ∀ (l seen : List String) (x : String), x ∈ l →
      probe (mkTag variant x) = false →
      x ∈ (collectNewMissing probe variant l seen).2.1 := by
  intro l
  induction l with
  | nil => intro seen x hx; simp at hx
  | cons v vs ih =>
    intro seen x hx hpx
    by_cases hv : v ∈ seen
    · rw [collectNewMissing_cons_seen probe variant v vs seen hv]
      rcases List.mem_cons.mp hx with rfl | hx'
      · exact (collectNewMissing_mem_snd probe variant vs seen x).mpr (Or.inr hv)
      · exact ih seen x hx' hpx
    · by_cases hp : probe (mkTag variant v) = true
      · rw [collectNewMissing_cons_true probe variant v vs seen hv hp]
        rcases List.mem_cons.mp hx with rfl | hx'
        · rw [hpx] at hp; exact Bool.noConfusion hp
        · exact ih seen x hx' hpx
      · rw [collectNewMissing_cons_false probe variant v vs seen hv
          (Bool.not_eq_true _ ▸ hp)]
        rcases List.mem_cons.mp hx with rfl | hx'
        · exact (collectNewMissing_mem_snd probe variant vs (x :: seen) x).mpr
            (Or.inr (by simp))
        · exact ih (v :: seen) x hx' hpx

theorem collectNewMissing_nodup_fresh (probe : String → Bool) (variant : String) :
    ∀ (l seen : List String),
      (collectNewMissing probe variant l seen).1.Nodup ∧
        ∀ x ∈ (collectNewMissing probe variant l seen).1, x ∉ seen := by
  intro l
  induction l with
  | nil => intro seen; simp [collectNewMissing]
  | cons v vs ih =>
    intro seen
    by_cases hv : v ∈ seen
    · rw [collectNewMissing_cons_seen probe variant v vs seen hv]
      exact ih seen
    · by_cases hp : probe (mkTag variant v) = true
      · rw [collectNewMissing_cons_true probe variant v vs seen hv hp]
        exact ih seen
      · rw [collectNewMissing_cons_false probe variant v vs seen hv
          (Bool.not_eq_true _ ▸ hp)]
        obtain ⟨hnd, hfresh⟩ := ih (v :: seen)
        refine ⟨List.nodup_cons.mpr ⟨fun hc => ?_, hnd⟩, ?_⟩
        · exact hfresh v hc (by simp)
        · intro x hx
          rcases List.mem_cons.mp hx with rfl | hx'
          · exact hv
          · exact fun hc => hfresh x hx' (by simp [hc])

theorem collectNewMissing_all_true (probe : String → Bool) (variant : String) :
    ∀ (l seen : List String), (∀ x ∈ l, probe (mkTag variant x) = true) →
      (collectNewMissing probe variant l seen).1 = [] := by
  intro l
  induction l with
  | nil => intro seen _; rfl
  | cons v vs ih =>
    intro seen hall
    by_cases hv : v ∈ seen
    · rw [collectNewMissing_cons_seen probe variant v vs seen hv]
      exact ih seen (fun x hx => hall x (by simp [hx]))
    · rw [collectNewMissing_cons_true probe variant v vs seen hv
        (hall v (by simp))]
      exact ih seen (fun x hx => hall x (by simp [hx]))

theorem collectNewMissing_count_le (probe : String → Bool) (variant : String) :
    ∀ (l seen : List String),
      (collectNewMissing probe variant l seen).2.2 ≤ l.length := by
  intro l
  induction l with
  | nil => intro seen; simp [collectNewMissing]
  | cons v vs ih =>
    intro seen
    by_cases hv : v ∈ seen
    · rw [collectNewMissing_cons_seen probe variant v vs seen hv]
      exact le_trans (ih seen) (by simp)
    · by_cases hp : probe (mkTag variant v) = true
      · rw [collectNewMissing_cons_true probe variant v vs seen hv hp]
        simpa using ih seen
      · rw [collectNewMissing_cons_false probe variant v vs seen hv
          (Bool.not_eq_true _ ▸ hp)]
        simpa using ih (v :: seen)

theorem window_elem_getD (versions : List String) (s k : Nat) (x : String)
    (hx : x ∈ (versions.drop s).take k) :
    ∃ i, s ≤ i ∧ i < s + k ∧ i < versions.length ∧ versions.getD i "" = x := by
  obtain ⟨j, hj, hget⟩ := List.mem_iff_getElem.mp hx
  have hjk : j < k ∧ j < versions.length - s := by
    rw [List.length_take, List.length_drop] at hj
    exact lt_min_iff.mp hj
  refine ⟨s + j, by omega, by omega, by omega, ?_⟩
  rw [List.getD_eq_getElem versions "" (by omega), ← hget,
    List.getElem_take, List.getElem_drop]

theorem getD_mem_window (versions : List String) (s k i : Nat)
    (h1 : s ≤ i) (h2 : i < s + k) (h3 : i < versions.length) :
    versions.getD i "" ∈ (versions.drop s).take k := by
  have hlt : i - s < ((versions.drop s).take k).length := by
    rw [List.length_take, List.length_drop]
    exact lt_min_iff.mpr ⟨by omega, by omega⟩
  rw [List.getD_eq_getElem versions "" h3]
  have hval : ((versions.drop s).take k)[i - s] = versions[i] := by
    rw [List.getElem_take, List.getElem_drop]
    have hi : s + (i - s) = i := by omega
    simp_rw [hi]
  rw [← hval]
  exact List.getElem_mem hlt

/-- The input list is a VersionList in the sense of the spec's data model:
every entry parses (so it has a canonical sort key) and the entries are in
ascending canonical order. -/
def VSorted (versions : List String) : Prop :=
  (∀ v ∈ versions, (version_sort_key v).isSome = true) ∧
    versions.Pairwise vle

/-- C1 (amended): for every duplicate-free version list sorted by the
canonical ordering and every probe with a monotone boundary b,
filter_versions_binary_search with force_full_sync = false returns
exactly the versions at indices b .. n-1, in ascending order (and hence
the empty list when the probe is true everywhere); the original claim
without the duplicate-free condition fails because the detector
deduplicates by string. -/
theorem c1_monotone_boundary (versions : List String) (variant : String)
    (probe : String → Bool) (b : Nat)
    (hnd : versions.Nodup) (hs : VSorted versions) (hb : b ≤ versions.length)
    (htrue : ∀ i, i < b → probe (mkTag variant (versions.getD i "")) = true)
    (hfalse : ∀ i, i < versions.length → b ≤ i →
      probe (mkTag variant (versions.getD i "")) = false) :
    filter_versions_binary_search versions variant probe false
      = some (versions.drop b) := by
  by_cases hemp : versions = []
  · subst hemp
    have hb0 : b = 0 := by simpa using hb
    subst hb0
    rfl
  · have hie : versions.isEmpty = false := by
      cases versions
      · exact absurd rfl hemp
      · rfl
    have hfm : (bsearchRun versions variant probe).1 = b := by
      unfold bsearchRun
      exact bsearchGo_boundary _ b versions.length htrue hfalse
        versions.length 0 versions.length (by omega) (by omega) hb le_rfl
    have hwin : ∀ x ∈ (versions.drop (b - 5)).take (b - (b - 5)),
        probe (mkTag variant x) = true := by
      intro x hx
      obtain ⟨i, hi1, hi2, hi3, hi4⟩ := window_elem_getD versions _ _ x hx
      rw [← hi4]
      exact htrue i (by omega)
    have ht1 : (collectNew (versions.drop b) []).1 = versions.drop b :=
      collectNew_eq_self _ _ (List.Nodup.sublist (List.drop_sublist b versions) hnd)
        (by simp)
    have hguard : (versions.drop b).all
        (fun v => (version_sort_key v).isSome) = true :=
      List.all_eq_true.mpr
        (fun x hx => hs.1 x ((List.drop_sublist b versions).subset hx))
    have hsorted : List.Sorted vle (versions.drop b) :=
      List.Pairwise.sublist (List.drop_sublist b versions) hs.2
    unfold filter_versions_binary_search filterI
    simp only [hie, Bool.false_eq_true, if_false, hfm]
    rw [ht1]
    rw [collectNewMissing_all_true probe variant _ _ hwin, List.append_nil,
      if_pos hguard, hsorted.insertionSort_eq]

theorem getD_mem_drop (versions : List String) (s i : Nat)
    (h1 : s ≤ i) (h3 : i < versions.length) :
    versions.getD i "" ∈ versions.drop s := by
  have hlt : i - s < (versions.drop s).length := by
    rw [List.length_drop]; omega
  rw [List.getD_eq_getElem versions "" h3]
  have hval : (versions.drop s)[i - s] = versions[i] := by
    rw [List.getElem_drop]
    have hi : s + (i - s) = i := by omega
    simp_rw [hi]
  rw [← hval]
  exact List.getElem_mem hlt

theorem first_missing_le (versions : List String) (variant : String)
    (probe : String → Bool) :
    first_missing versions variant probe ≤ versions.length :=
  bsearchGo_fst_le _ versions.length 0 versions.length versions.length le_rfl

theorem filter_false_spec (versions : List String) (variant : String)
    (probe : String → Bool)
    (hvalid : ∀ v ∈ versions, (version_sort_key v).isSome = true) :
    ∃ res, filter_versions_binary_search versions variant probe false
        = some res ∧
      res.Perm ((collectNew
          (versions.drop (first_missing versions variant probe)) []).1
        ++ (collectNewMissing probe variant
          ((versions.drop (first_missing versions variant probe - 5)).take
            (first_missing versions variant probe
              - (first_missing versions variant probe - 5)))
          (collectNew
            (versions.drop (first_missing versions variant probe)) []).2).1) ∧
      res.Pairwise vle := by
  by_cases hemp : versions = []
  · subst hemp
    exact ⟨[], rfl, List.Perm.nil, List.Pairwise.nil⟩
  · have hie : versions.isEmpty = false := by
      cases versions
      · exact absurd rfl hemp
      · rfl
    have hsub : ∀ x ∈ (collectNew
          (versions.drop (first_missing versions variant probe)) []).1
        ++ (collectNewMissing probe variant
          ((versions.drop (first_missing versions variant probe - 5)).take
            (first_missing versions variant probe
              - (first_missing versions variant probe - 5)))
          (collectNew
            (versions.drop (first_missing versions variant probe)) []).2).1,
        x ∈ versions := by
      intro x hx
      rcases List.mem_append.mp hx with hx' | hx'
      · exact (List.drop_sublist _ _).subset
          ((collectNew_mem_fst _ _ x).mp hx').1
      · have h1 := (collectNewMissing_mem_fst probe variant _ _ x hx').1
        exact (List.drop_sublist _ _).subset ((List.take_sublist _ _).subset h1)
    unfold filter_versions_binary_search filterI
    simp only [hie, Bool.false_eq_true, if_false]
    split
    · exact ⟨_, rfl, List.perm_insertionSort vle _,
        List.sorted_insertionSort vle _⟩
    · rename_i hguard
      exfalso
      exact hguard (List.all_eq_true.mpr fun x hx => hvalid x (hsub x hx))

/-- C2 (code_bug evidence): a probe whose subprocess call exceeds the 60s
timeout is not converted into false: check_ghcr_tag_exists has no
try/except, so subprocess.TimeoutExpired escapes (the embedding returns
an error and never ok false), and the detector above it catches nothing,
contradicting the contract that a probe failure is treated as not
present and never propagated. -/
theorem c2_timeout_not_false :
    check_ghcr_tag_exists RunOutcome.timeoutExpired
        = Except.error "subprocess.TimeoutExpired" ∧
      ∀ b : Bool, check_ghcr_tag_exists RunOutcome.timeoutExpired
        ≠ Except.ok b :=
  ⟨rfl, fun _ h => Except.noConfusion h⟩

/-- C9 (confirmed): with forceFullSync = true the entire input list is
returned unchanged and the probe is never invoked (probe count 0). -/
theorem c9_force_full_sync (versions : List String) (variant : String)
    (probe : String → Bool) :
    filter_versions_binary_search versions variant probe true = some versions ∧
      (filterI versions variant probe true).2 = 0 := by
  have h : filterI versions variant probe true = (some versions, 0) := by
    unfold filterI
    by_cases hv : versions.isEmpty = true
    · rw [if_pos hv, List.isEmpty_iff.mp hv]
    · rw [if_neg hv, if_pos rfl]
  exact ⟨congrArg Prod.fst h, congrArg Prod.snd h⟩

/-- C3 (confirmed): the detector always terminates (all loops are
structurally bounded) and, for a non-empty list with forceFullSync =
false, performs at most floor(log2 n) + 1 probes in the binary search
plus at most 5 in the trailing gap-check window. -/
theorem c3_probe_count (versions : List String) (variant : String)
    (probe : String → Bool) (h : versions ≠ []) :
    (filterI versions variant probe false).2
      ≤ Nat.log 2 versions.length + 1 + 5 := by
  have hie : versions.isEmpty = false := by
    cases versions
    · exact absurd rfl h
    · rfl
  unfold filterI
  simp only [hie, Bool.false_eq_true, if_false]
  have h1 : (bsearchRun versions variant probe).2
      ≤ Nat.log 2 versions.length + 1 := by
    unfold bsearchRun
    have hb := bsearchGo_count
      (fun i => probe (mkTag variant (versions.getD i "")))
      versions.length 0 versions.length versions.length (by omega)
    by_cases hn : 0 < versions.length
    · rw [if_pos hn] at hb
      simpa using hb
    · rw [if_neg hn] at hb
      omega
  have h2 : (collectNewMissing probe variant
      ((versions.drop ((bsearchRun versions variant probe).1 - 5)).take
        ((bsearchRun versions variant probe).1
          - ((bsearchRun versions variant probe).1 - 5)))
      (collectNew
        (versions.drop (bsearchRun versions variant probe).1) []).2).2.2
        ≤ 5 := by
    refine le_trans (collectNewMissing_count_le probe variant _ _) ?_
    rw [List.length_take]
    exact le_trans (min_le_left _ _) (by omega)
  omega

theorem c3_probe_count_witness :
    (["1.0.0"] : List String) ≠ [] ∧
      (filterI ["1.0.0"] "official" (fun _ => true) false).2
        ≤ Nat.log 2 (["1.0.0"] : List String).length + 1 + 5 :=
  ⟨by decide, c3_probe_count ["1.0.0"] "official" (fun _ => true) (by decide)⟩

/-- C4 (confirmed): letting first_missing be the boundary the binary
search produced, every version in the window of up to 5 indices below it
whose re-probe reports missing is in the returned list, and so is every
version at an index at or above first_missing. -/
theorem c4_gap_window (versions : List String) (variant : String)
    (probe : String → Bool) (hs : VSorted versions) :
    ∃ res, filter_versions_binary_search versions variant probe false
        = some res ∧
      (∀ i, i < versions.length →
        first_missing versions variant probe ≤ i →
        versions.getD i "" ∈ res) ∧
      (∀ i, i < first_missing versions variant probe →
        first_missing versions variant probe - 5 ≤ i →
        probe (mkTag variant (versions.getD i "")) = false →
        versions.getD i "" ∈ res) := by
  obtain ⟨res, hres, hperm, -⟩ := filter_false_spec versions variant probe hs.1
  have hfmle := first_missing_le versions variant probe
  refine ⟨res, hres, ?_, ?_⟩
  · intro i hi hfm
    apply (hperm.mem_iff).mpr
    apply List.mem_append.mpr
    left
    exact (collectNew_mem_fst _ _ _).mpr
      ⟨getD_mem_drop versions _ i hfm hi, by simp⟩
  · intro i hifm hwnd hpf
    apply (hperm.mem_iff).mpr
    have hfl : i < versions.length := lt_of_lt_of_le hifm hfmle
    have hin : versions.getD i ""
        ∈ (versions.drop (first_missing versions variant probe - 5)).take
          (first_missing versions variant probe
            - (first_missing versions variant probe - 5)) :=
      getD_mem_window versions _ _ i hwnd (by omega) hfl
    have hseen := collectNewMissing_complete probe variant _
      (collectNew
        (versions.drop (first_missing versions variant probe)) []).2 _ hin hpf
    rw [collectNewMissing_mem_snd] at hseen
    rcases hseen with hmem | hmem
    · exact List.mem_append.mpr (Or.inr hmem)
    · rw [collectNew_mem_snd] at hmem
      rcases hmem with hmem | hmem
      · exact List.mem_append.mpr (Or.inl hmem)
      · simp at hmem

theorem c4_gap_window_witness :
    VSorted ["1.0.0", "1.0.1", "1.0.2"] ∧
      ∃ res, filter_versions_binary_search ["1.0.0", "1.0.1", "1.0.2"]
          "official" (fun _ => false) false = some res ∧
        (∀ i, i < (["1.0.0", "1.0.1", "1.0.2"] : List String).length →
          first_missing ["1.0.0", "1.0.1", "1.0.2"] "official"
            (fun _ => false) ≤ i →
          (["1.0.0", "1.0.1", "1.0.2"] : List String).getD i "" ∈ res) ∧
        (∀ i, i < first_missing ["1.0.0", "1.0.1", "1.0.2"] "official"
            (fun _ => false) →
          first_missing ["1.0.0", "1.0.1", "1.0.2"] "official"
            (fun _ => false) - 5 ≤ i →
          (fun _ : String => false)
            (mkTag "official"
              ((["1.0.0", "1.0.1", "1.0.2"] : List String).getD i ""))
            = false →
          (["1.0.0", "1.0.1", "1.0.2"] : List String).getD i "" ∈ res) := by
  have hs : VSorted ["1.0.0", "1.0.1", "1.0.2"] := ⟨by decide, by decide⟩
  exact ⟨hs, c4_gap_window _ _ _ hs⟩

/-- C8 (confirmed): with forceFullSync = false the returned list has no
duplicate version strings, draws all its elements from the input list,
and is sorted ascending by the canonical ordering. -/
theorem c8_result_invariants (versions : List String) (variant : String)
    (probe : String → Bool)
    (hvalid : ∀ v ∈ versions, (version_sort_key v).isSome = true) :
    ∃ res, filter_versions_binary_search versions variant probe false
        = some res ∧
      res.Nodup ∧ (∀ v ∈ res, v ∈ versions) ∧ res.Pairwise vle := by
  obtain ⟨res, hres, hperm, hsort⟩ :=
    filter_false_spec versions variant probe hvalid
  refine ⟨res, hres, ?_, ?_, hsort⟩
  · apply (hperm.nodup_iff).mpr
    apply List.nodup_append.mpr
    refine ⟨collectNew_nodup _ _,
      (collectNewMissing_nodup_fresh probe variant _ _).1, ?_⟩
    intro x hx1 hx2
    exact (collectNewMissing_nodup_fresh probe variant _ _).2 x hx2
      ((collectNew_mem_snd _ _ _).mpr (Or.inl hx1))
  · intro v hv
    rcases List.mem_append.mp (hperm.subset hv) with hmem | hmem
    · exact (List.drop_sublist _ _).subset
        ((collectNew_mem_fst _ _ _).mp hmem).1
    · exact (List.drop_sublist _ _).subset
        ((List.take_sublist _ _).subset
          ((collectNewMissing_mem_fst probe variant _ _ _ hmem).1))

theorem c8_result_invariants_witness :
    (∀ v ∈ (["1.0.2", "1.0.0", "1.0.1"] : List String),
      (version_sort_key v).isSome = true) ∧
      ∃ res, filter_versions_binary_search ["1.0.2", "1.0.0", "1.0.1"]
          "full" (fun t => t == "full-1.0.2") false = some res ∧
        res.Nodup ∧
        (∀ v ∈ res, v ∈ (["1.0.2", "1.0.0", "1.0.1"] : List String)) ∧
        res.Pairwise vle := by
  have hv : ∀ v ∈ (["1.0.2", "1.0.0", "1.0.1"] : List String),
      (version_sort_key v).isSome = true := by decide
  exact ⟨hv, c8_result_invariants _ _ _ hv⟩

/-- C1 (counterexample): the claim as stated fails on a sorted list with a
duplicated string: with both entries missing (boundary b = 0) the claim
demands both copies back, but the detector deduplicates by string and
returns only one. -/
theorem c1_counterexample :
    VSorted ["1.0.0", "1.0.0"] ∧
      (∀ i : Nat, i < 0 →
        (fun _ : String => false)
          (mkTag "official"
            ((["1.0.0", "1.0.0"] : List String).getD i "")) = true) ∧
      (∀ i : Nat, i < (["1.0.0", "1.0.0"] : List String).length → 0 ≤ i →
        (fun _ : String => false)
          (mkTag "official"
            ((["1.0.0", "1.0.0"] : List String).getD i "")) = false) ∧
      filter_versions_binary_search ["1.0.0", "1.0.0"] "official"
          (fun _ => false) false
        ≠ some ((["1.0.0", "1.0.0"] : List String).drop 0) := by
  refine ⟨⟨by decide, by decide⟩, ?_, ?_, by decide⟩
  · intro i hi
    exact absurd hi (by omega)
  · intro i _ _
    rfl

theorem c1_monotone_boundary_witness :
    (["1.0.0", "2.0.0"] : List String).Nodup ∧
      VSorted ["1.0.0", "2.0.0"] ∧ (1 : Nat) ≤ 2 ∧
      (∀ i : Nat, i < 1 →
        (fun t : String => t == "official-1.0.0")
          (mkTag "official"
            ((["1.0.0", "2.0.0"] : List String).getD i "")) = true) ∧
      (∀ i : Nat, i < (["1.0.0", "2.0.0"] : List String).length → 1 ≤ i →
        (fun t : String => t == "official-1.0.0")
          (mkTag "official"
            ((["1.0.0", "2.0.0"] : List String).getD i "")) = false) ∧
      filter_versions_binary_search ["1.0.0", "2.0.0"] "official"
          (fun t => t == "official-1.0.0") false
        = some ((["1.0.0", "2.0.0"] : List String).drop 1) := by
  refine ⟨by decide, ⟨by decide, by decide⟩, by decide, by decide, by decide,
    c1_monotone_boundary ["1.0.0", "2.0.0"] "official"
      (fun t => t == "official-1.0.0") 1 (by decide) ⟨by decide, by decide⟩
      (by decide) (by decide) (by decide)⟩
